import Mathlib

/-!
Verification of the turn-taking voice-conversation orchestrator
(discord-voice-speak).

The development shallowly embeds the Python sources as Lean functions over
`List Char` (Python `str`) and association lists keyed by `Nat` (Python
`dict` keyed by user id, iteration in insertion order):

* `pyStrip`, `pySplit`, `joinSpace`, … model `str.strip()`, `str.split()`,
  `" ".join(...)`;
* `ConvState`, `add_fragment`, `finalize_phrase` model
  `services/conversation_manager.py` (per-user fragment buffers and the
  debounce finalisation);
* `handleConversation`, `processFrom` model the sequential response
  processor of the same file as the event trace it produces;
* `add_pending_audio`, `get_pending_audio`, `interrupt_and_clear` model
  `services/audio_manager.py`;
* `processQueueItem`, `process_pending_audio`, `orchStep` model the audio
  queue dispatch of `run/orchestrator.py`;
* `Chunker`, `appendBlock`, `emitStep`, `processBlocksAll` model
  `tts/chunker.py` (`SmartTTSChunker`);
* `chatStreamLoop` models `m_agent/vertex_llm.py` (`chat_stream` with its
  retry and fallback ladder).

Wall-clock quantities (timer delays, timestamps) are outside the embedding;
the debounce timer is represented by where `finalize_phrase` fires in a
scenario, exactly as the spec's scenarios describe it.
-/

/-! ## Python string primitives over `List Char` -/

/-- Whitespace as removed by Python's `str.strip()` and matched by `\s`
(ASCII range). -/
def isWS (c : Char) : Bool :=
  c == ' ' || c == '\t' || c == '\n' || c == '\r' || c == '\x0b' || c == '\x0c'

/-- Python `str.strip()`: remove leading and trailing whitespace. -/
def pyStrip (l : List Char) : List Char :=
  ((l.dropWhile isWS).reverse.dropWhile isWS).reverse

/-- Python `" ".join(xs)`. -/
def joinSpace : List (List Char) → List Char
  | [] => []
  | [x] => x
  | x :: y :: rest => x ++ ' ' :: joinSpace (y :: rest)

/-- Auxiliary splitter: cut a character list at every whitespace character
(keeping empty pieces). -/
def splitWSAux (l : List Char) : List (List Char) :=
  l.foldr
    (fun c acc =>
      if isWS c then [] :: acc
      else
        match acc with
        | [] => [[c]]
        | w :: ws => (c :: w) :: ws)
    [[]]

/-- Python `str.split()` with no arguments: split on whitespace runs,
dropping empty pieces. -/
def pySplit (l : List Char) : List (List Char) :=
  (splitWSAux l).filter (fun w => decide (w ≠ []))

/-- The non-whitespace characters of a string, in order. -/
def letters (l : List Char) : List Char :=
  l.filter (fun c => !(isWS c))

/-- Whether `sub` occurs at the start of `l` (Python `str.startswith`). -/
def beginsWith : List Char → List Char → Bool
  | _, [] => true
  | [], _ :: _ => false
  | a :: l, b :: m => a == b && beginsWith l m

/-- Whether `sub` occurs anywhere in `l` (Python `sub in s`). -/
def hasSub : List Char → List Char → Bool
  | [], sub => beginsWith [] sub
  | a :: t, sub => beginsWith (a :: t) sub || hasSub t sub

/-- The remainder of `l` after the first occurrence of `sub`
(Python `s.split(sub, 1)[1]`), if `sub` occurs. -/
def afterSub : List Char → List Char → Option (List Char)
  | [], sub => if beginsWith [] sub then some [] else none
  | a :: t, sub =>
    if beginsWith (a :: t) sub then some ((a :: t).drop sub.length)
    else afterSub t sub

/-- Python `str.lower()` (character-wise). -/
def toLowerL (l : List Char) : List Char := l.map Char.toLower

/-! ### Facts about `pyStrip` and `joinSpace` -/

lemma dropWhile_eq_self_of_head {p : Char → Bool} {l : List Char}
    (h : ∀ c, l.head? = some c → p c = false) : l.dropWhile p = l := by
  cases l with
  | nil => rfl
  | cons a t =>
    have ha : p a = false := h a rfl
    rw [List.dropWhile_cons, ha]
    simp

lemma head_dropWhile_false {p : Char → Bool} {l : List Char} {c : Char}
    (h : (l.dropWhile p).head? = some c) : p c = false := by
  induction l with
  | nil => simp at h
  | cons a t ih =>
    rw [List.dropWhile_cons] at h
    by_cases hp : p a = true
    · rw [if_pos hp] at h
      exact ih h
    · rw [if_neg hp] at h
      simp only [List.head?_cons, Option.some.injEq] at h
      subst h
      simpa using hp

lemma head?_append_left {α : Type} {l : List α} (r : List α) (h : l ≠ []) :
    (l ++ r).head? = l.head? := by
  cases l with
  | nil => exact absurd rfl h
  | cons a t => rfl

/-- `pyStrip l` is an initial segment of `l.dropWhile isWS`. -/
lemma pyStrip_eq_take (l : List Char) :
    ∃ t, l.dropWhile isWS = pyStrip l ++ t := by
  refine ⟨((l.dropWhile isWS).reverse.takeWhile isWS).reverse, ?_⟩
  have h2 : (l.dropWhile isWS).reverse.reverse =
      ((l.dropWhile isWS).reverse.takeWhile isWS ++
        (l.dropWhile isWS).reverse.dropWhile isWS).reverse := by
    rw [List.takeWhile_append_dropWhile]
  rw [List.reverse_reverse, List.reverse_append] at h2
  simpa [pyStrip] using h2

/-- A string is `Trimmed` when it neither starts nor ends with whitespace. -/
def Trimmed (l : List Char) : Prop :=
  (∀ c, l.head? = some c → isWS c = false) ∧
  (∀ c, l.reverse.head? = some c → isWS c = false)

lemma trimmed_pyStrip (l : List Char) : Trimmed (pyStrip l) := by
  constructor
  · intro c hc
    obtain ⟨t, ht⟩ := pyStrip_eq_take (l := l)
    have hne : pyStrip l ≠ [] := by
      intro h0
      rw [h0] at hc
      simp at hc
    have : (l.dropWhile isWS).head? = some c := by
      rw [ht, head?_append_left _ hne]
      exact hc
    exact head_dropWhile_false this
  · intro c hc
    have : ((l.dropWhile isWS).reverse.dropWhile isWS).head? = some c := by
      simpa [pyStrip] using hc
    exact head_dropWhile_false this

lemma pyStrip_eq_self {l : List Char} (h : Trimmed l) : pyStrip l = l := by
  unfold pyStrip
  rw [dropWhile_eq_self_of_head h.1, dropWhile_eq_self_of_head, List.reverse_reverse]
  intro c hc
  exact h.2 c hc

lemma pyStrip_idem (l : List Char) : pyStrip (pyStrip l) = pyStrip l :=
  pyStrip_eq_self (trimmed_pyStrip l)

lemma joinSpace_ne_nil {x : List Char} {rest : List (List Char)} (hx : x ≠ []) :
    joinSpace (x :: rest) ≠ [] := by
  cases rest with
  | nil => simpa [joinSpace] using hx
  | cons y ys =>
    simp only [joinSpace]
    intro h
    exact hx (List.append_eq_nil.mp h).1

lemma joinSpace_head? {x : List Char} {rest : List (List Char)} (hx : x ≠ []) :
    (joinSpace (x :: rest)).head? = x.head? := by
  cases rest with
  | nil => rfl
  | cons y ys =>
    simp only [joinSpace]
    exact head?_append_left _ hx

lemma trimmed_joinSpace {xs : List (List Char)}
    (h : ∀ f ∈ xs, Trimmed f ∧ f ≠ []) : Trimmed (joinSpace xs) := by
  induction xs with
  | nil => exact ⟨fun c hc => by simp [joinSpace] at hc, fun c hc => by simp [joinSpace] at hc⟩
  | cons x rest ih =>
    obtain ⟨hxt, hxne⟩ := h x (by simp)
    cases rest with
    | nil => simpa [joinSpace] using hxt
    | cons y ys =>
      have hrest := ih (fun f hf => h f (List.mem_cons_of_mem x hf))
      constructor
      · intro c hc
        rw [joinSpace_head? hxne] at hc
        exact hxt.1 c hc
      · intro c hc
        have hyne : y ≠ [] := (h y (by simp)).2
        have hjne : joinSpace (y :: ys) ≠ [] := joinSpace_ne_nil hyne
        have hrne : (joinSpace (y :: ys)).reverse ≠ [] := by
          simpa using hjne
        simp only [joinSpace, List.reverse_append, List.reverse_cons] at hc
        rw [List.append_assoc, head?_append_left _ hrne] at hc
        exact hrest.2 c hc

/-- Stripping a single-space join of trimmed non-empty pieces is a no-op. -/
lemma pyStrip_joinSpace_map {fs : List (List Char)}
    (h : ∀ f ∈ fs, pyStrip f ≠ []) :
    pyStrip (joinSpace (fs.map pyStrip)) = joinSpace (fs.map pyStrip) := by
  apply pyStrip_eq_self
  apply trimmed_joinSpace
  intro g hg
  obtain ⟨f, hf, rfl⟩ := List.mem_map.mp hg
  exact ⟨trimmed_pyStrip f, h f hf⟩

/-! ### Facts about `letters` -/

lemma letters_append (l r : List Char) : letters (l ++ r) = letters l ++ letters r :=
  List.filter_append l r

lemma letters_reverse (l : List Char) : letters l.reverse = (letters l).reverse :=
  List.filter_reverse _ l

lemma letters_dropWhile (l : List Char) : letters (l.dropWhile isWS) = letters l := by
  induction l with
  | nil => rfl
  | cons a t ih =>
    rw [List.dropWhile_cons]
    by_cases hw : isWS a
    · simp only [hw, if_true, ih]
      simp [letters, hw]
    · simp [hw]

lemma letters_pyStrip (l : List Char) : letters (pyStrip l) = letters l := by
  unfold pyStrip
  rw [letters_reverse, letters_dropWhile, letters_reverse, List.reverse_reverse,
    letters_dropWhile]

lemma letters_space_cons (l : List Char) : letters (' ' :: l) = letters l := by
  simp [letters, isWS]

lemma letters_append_space (l : List Char) : letters (l ++ [' ']) = letters l := by
  rw [letters_append]
  simp [letters, isWS]

lemma letters_eq_nil_of_pyStrip_nil {l : List Char} (h : pyStrip l = []) :
    letters l = [] := by
  rw [← letters_pyStrip, h]
  rfl

/-! ## Association-list model of a Python dict keyed by user id

Python dicts preserve insertion order; `dictSet` updates an existing key in
place and appends a new key at the end, `dictGet` is `d.get(k)`. -/

def dictGet {α : Type} : List (Nat × α) → Nat → Option α
  | [], _ => none
  | (k, v) :: rest, u => if k = u then some v else dictGet rest u

def dictSet {α : Type} : List (Nat × α) → Nat → α → List (Nat × α)
  | [], u, v => [(u, v)]
  | (k, w) :: rest, u, v =>
    if k = u then (k, v) :: rest else (k, w) :: dictSet rest u v

lemma dictGet_set_self {α : Type} (d : List (Nat × α)) (u : Nat) (v : α) :
    dictGet (dictSet d u v) u = some v := by
  induction d with
  | nil => simp [dictGet, dictSet]
  | cons kv rest ih =>
    obtain ⟨k, w⟩ := kv
    by_cases hk : k = u
    · simp [dictSet, dictGet, hk]
    · simp [dictSet, dictGet, hk, ih]

lemma dictGet_set_other {α : Type} (d : List (Nat × α)) {u u' : Nat} (v : α)
    (h : u ≠ u') : dictGet (dictSet d u' v) u = dictGet d u := by
  have h' : ¬ u' = u := fun hh => h hh.symm
  induction d with
  | nil => simp [dictGet, dictSet, h']
  | cons kv rest ih =>
    obtain ⟨k, w⟩ := kv
    by_cases hk : k = u'
    · subst hk
      simp [dictSet, dictGet, h']
    · by_cases hku : k = u
      · simp [dictSet, dictGet, hk, hku, h]
      · simp [dictSet, dictGet, hk, hku, ih]

/-! ## ConversationManager (`services/conversation_manager.py`)

`ConvState.buffers` models `self._user_buffers` (per-user fragment lists),
`ConvState.queue` models the `ConversationContext`s put on
`self._response_queue`, each recorded as `(user_id, display_name, phrase)`.
The debounce timer itself is wall-clock machinery; `finalize_phrase` is the
body of `_finalize_phrase`, fired when the `silence_timeout` elapses. -/

structure ConvState where
  buffers : List (Nat × List (List Char))
  queue : List (Nat × List Char × List Char)
deriving DecidableEq

/-- `ConversationManager.add_fragment` (lines 93-135): ignore empty or
whitespace-only fragments, otherwise append the stripped fragment to the
user's buffer (creating it on first use) and re-arm the debounce timer. -/
def add_fragment (st : ConvState) (user_id : Nat) (user_display_name fragment : List Char) :
    ConvState :=
  if pyStrip fragment = [] then st
  else
    { st with
      buffers := dictSet st.buffers user_id
        (((dictGet st.buffers user_id).getD []) ++ [pyStrip fragment]) }

/-- `ConversationManager._finalize_phrase` (lines 154-173): a no-op on an
empty buffer; otherwise join the buffered fragments with single spaces,
strip, clear the buffer and enqueue the turn on the response queue. -/
def finalize_phrase (st : ConvState) (user_id : Nat) (user_display_name : List Char) :
    ConvState :=
  if (dictGet st.buffers user_id).getD [] = [] then st
  else
    { buffers := dictSet st.buffers user_id []
      queue := st.queue ++
        [(user_id, user_display_name,
          pyStrip (joinSpace ((dictGet st.buffers user_id).getD [])))] }

lemma add_fragment_queue (st : ConvState) (u : Nat) (nm t : List Char) :
    (add_fragment st u nm t).queue = st.queue := by
  unfold add_fragment
  split <;> rfl

lemma foldl_add_fragment_single (u : Nat) (nm : List Char)
    (fs : List (List Char)) (h : ∀ f ∈ fs, pyStrip f ≠ []) :
    ∀ (acc : List (List Char)) (q : List (Nat × List Char × List Char)),
      fs.foldl (fun s f => add_fragment s u nm f) ⟨[(u, acc)], q⟩
        = ⟨[(u, acc ++ fs.map pyStrip)], q⟩ := by
  induction fs with
  | nil => intro acc q; simp
  | cons f rest ih =>
    intro acc q
    have hf : pyStrip f ≠ [] := h f (by simp)
    have hstep : add_fragment ⟨[(u, acc)], q⟩ u nm f
        = ⟨[(u, acc ++ [pyStrip f])], q⟩ := by
      simp [add_fragment, hf, dictGet, dictSet]
    rw [List.foldl_cons, hstep, ih (fun g hg => h g (List.mem_cons_of_mem f hg))]
    simp

/-- C1. For a non-empty run of non-whitespace fragments from one speaker,
all landing inside the debounce window (so no intermediate finalisation
fires), the finalisation produces exactly one ConversationTurn whose text
is the stripped fragments joined with single spaces, in submission order;
the buffer is left empty. -/
theorem conversation_single_turn (u : Nat) (nm : List Char)
    (fs : List (List Char)) (hne : fs ≠ []) (h : ∀ f ∈ fs, pyStrip f ≠ []) :
    finalize_phrase (fs.foldl (fun s f => add_fragment s u nm f) ⟨[], []⟩) u nm
      = ⟨[(u, [])], [(u, nm, joinSpace (fs.map pyStrip))]⟩ := by
  cases fs with
  | nil => exact absurd rfl hne
  | cons f rest =>
    have hf : pyStrip f ≠ [] := h f (by simp)
    have hstep : add_fragment ⟨[], []⟩ u nm f = ⟨[(u, [pyStrip f])], []⟩ := by
      simp [add_fragment, hf, dictGet, dictSet]
    rw [List.foldl_cons, hstep,
      foldl_add_fragment_single u nm rest (fun g hg => h g (List.mem_cons_of_mem f hg))]
    have hmapne : ([pyStrip f] : List (List Char)) ++ rest.map pyStrip ≠ [] := by
      simp
    have hget : (dictGet [(u, [pyStrip f] ++ rest.map pyStrip)] u).getD []
        = [pyStrip f] ++ rest.map pyStrip := by
      simp [dictGet]
    have hjoin : pyStrip (joinSpace ([pyStrip f] ++ rest.map pyStrip))
        = joinSpace ((f :: rest).map pyStrip) := by
      have hmap : ([pyStrip f] ++ rest.map pyStrip) = (f :: rest).map pyStrip := by simp
      rw [hmap]
      exact pyStrip_joinSpace_map h
    simp only [finalize_phrase, hget]
    rw [if_neg hmapne]
    simp [dictSet]
    exact pyStrip_joinSpace_map h

/-- Witness for C1 at the spec's own scenario: fragments "Hello", "world"
for one speaker yield the single turn "Hello world". -/
theorem conversation_single_turn_witness :
    (["Hello".data, "world".data] ≠ ([] : List (List Char))
      ∧ ∀ f ∈ ["Hello".data, "world".data], pyStrip f ≠ [])
    ∧ finalize_phrase
        (["Hello".data, "world".data].foldl
          (fun s f => add_fragment s 1 "A".data f) ⟨[], []⟩) 1 "A".data
      = ⟨[(1, [])], [(1, "A".data, "Hello world".data)]⟩ := by
  refine ⟨⟨by decide, by decide⟩, ?_⟩
  have h := conversation_single_turn 1 "A".data ["Hello".data, "world".data]
    (by decide) (by decide)
  rw [h]
  decide

/-! ## Sequential response processor (`conversation_manager.py` lines 175-254)

`_process_responses` pulls one `ConversationContext` at a time from the
queue and awaits `_handle_conversation` before pulling the next; the events
it delivers through the orchestrator callbacks are modelled as a trace.
The generation stream for a turn either completes with a list of text
blocks or raises after yielding a prefix of them (`GenOutcome.fail`);
`_process_streaming_response` forwards each block whose stripped text is
non-empty and re-raises, and `_handle_conversation` answers an exception
with exactly one fallback block before its `finally` fires the completion
callback. `_execute_callback` swallows callback exceptions, so the trace is
independent of hook failures. -/

inductive REv
  | start
  | block (text : List Char)
  | complete
deriving DecidableEq

/-- The fallback text sent by `_handle_conversation` when streaming raises
(line 218). -/
def fallbackText : List Char :=
  "Disculpa, hubo un problema técnico. ¿Puedes intentar de nuevo?".data

/-- Outcome of one turn's generation stream: `ok blocks` when the stream
finishes, `fail blocks` when iterating it raises after yielding `blocks`. -/
inductive GenOutcome
  | ok (blocks : List (List Char))
  | fail (blocks : List (List Char))

/-- Event trace of `_handle_conversation` for one turn (lines 193-244). -/
def handleConversation (oc : GenOutcome) : List REv :=
  REv.start ::
    ((match oc with
      | .ok bs => (bs.filter (fun b => decide (pyStrip b ≠ []))).map REv.block
      | .fail bs =>
        ((bs.filter (fun b => decide (pyStrip b ≠ []))).map REv.block)
          ++ [REv.block fallbackText])
      ++ [REv.complete])

/-- Event trace of `_process_responses` from turn index `i` on: each turn is
handled to completion before the next is dequeued; events are tagged with
the index of the turn they belong to. -/
def processFrom (i : Nat) : List GenOutcome → List (Nat × REv)
  | [] => []
  | oc :: rest =>
    (handleConversation oc).map (fun e => (i, e)) ++ processFrom (i + 1) rest

/-- Full trace of the sequential response processor over a queue of turns. -/
def processResponses (ocs : List GenOutcome) : List (Nat × REv) :=
  processFrom 0 ocs

lemma getElem?_lt_length {α : Type} {l : List α} {n : Nat} {a : α}
    (h : l[n]? = some a) : n < l.length := by
  by_contra hn
  push_neg at hn
  rw [List.getElem?_eq_none hn] at h
  cases h

lemma processFrom_tag_ge {i : Nat} {ocs : List GenOutcome} {p : Nat}
    {t : Nat × REv} (h : (processFrom i ocs)[p]? = some t) : i ≤ t.1 := by
  induction ocs generalizing i p with
  | nil => simp [processFrom] at h
  | cons oc rest ih =>
    rw [processFrom] at h
    by_cases hp : p < ((handleConversation oc).map (fun e => (i, e))).length
    · rw [List.getElem?_append_left hp] at h
      rw [List.getElem?_map] at h
      cases hb : (handleConversation oc)[p]? with
      | none => rw [hb] at h; cases h
      | some e =>
        rw [hb] at h
        cases h
        exact le_refl i
    · push_neg at hp
      rw [List.getElem?_append_right hp] at h
      have := ih h
      omega

lemma processFrom_tag_mono {i : Nat} {ocs : List GenOutcome} {p q a b : Nat}
    {ea eb : REv} (hp : (processFrom i ocs)[p]? = some (a, ea))
    (hq : (processFrom i ocs)[q]? = some (b, eb)) (hab : a < b) : p < q := by
  induction ocs generalizing i p q with
  | nil => simp [processFrom] at hp
  | cons oc rest ih =>
    rw [processFrom] at hp hq
    set seg := (handleConversation oc).map (fun e => (i, e)) with hseg
    by_cases hpl : p < seg.length
    · by_cases hql : q < seg.length
      · exfalso
        rw [List.getElem?_append_left hpl] at hp
        rw [List.getElem?_append_left hql] at hq
        rw [hseg, List.getElem?_map] at hp hq
        cases hb1 : (handleConversation oc)[p]? with
        | none => rw [hb1] at hp; cases hp
        | some e1 =>
          cases hb2 : (handleConversation oc)[q]? with
          | none => rw [hb2] at hq; cases hq
          | some e2 =>
            rw [hb1] at hp
            rw [hb2] at hq
            cases hp
            cases hq
            exact lt_irrefl a hab
      · push_neg at hql
        exact lt_of_lt_of_le hpl hql
    · push_neg at hpl
      by_cases hql : q < seg.length
      · exfalso
        rw [List.getElem?_append_right hpl] at hp
        rw [List.getElem?_append_left hql] at hq
        have ha : i + 1 ≤ a := processFrom_tag_ge hp
        rw [hseg, List.getElem?_map] at hq
        cases hb2 : (handleConversation oc)[q]? with
        | none => rw [hb2] at hq; cases hq
        | some e2 =>
          rw [hb2] at hq
          cases hq
          omega
      · push_neg at hql
        rw [List.getElem?_append_right hpl] at hp
        rw [List.getElem?_append_right hql] at hq
        have := ih hp hq
        omega

/-- C3. Turns are processed strictly one at a time in queue order: in the
trace of the sequential response processor, the `complete` event of an
earlier turn always precedes the `start` event of any later turn, so no two
generation-plus-playback cycles overlap. -/
theorem turns_processed_sequentially (ocs : List GenOutcome) (n m p q : Nat)
    (hnm : n < m)
    (hcomp : (processResponses ocs)[p]? = some (n, REv.complete))
    (hstart : (processResponses ocs)[q]? = some (m, REv.start)) :
    p < q :=
  processFrom_tag_mono hcomp hstart hnm

/-- Witness for C3 on a two-turn queue: turn 0 completes (position 2)
before turn 1 starts (position 3). -/
theorem turns_processed_sequentially_witness :
    ((0 : Nat) < 1
      ∧ (processResponses [GenOutcome.ok ["Hola".data], GenOutcome.ok ["Adiós".data]])[2]?
          = some (0, REv.complete)
      ∧ (processResponses [GenOutcome.ok ["Hola".data], GenOutcome.ok ["Adiós".data]])[3]?
          = some (1, REv.start))
    ∧ 2 < 3 := by
  refine ⟨⟨by decide, by decide, by decide⟩, ?_⟩
  exact turns_processed_sequentially
    [GenOutcome.ok ["Hola".data], GenOutcome.ok ["Adiós".data]] 0 1 2 3
    (by decide) (by decide) (by decide)

lemma count_map_block (l : List (List Char)) (t : List Char) :
    ((l.map REv.block).count (REv.block t)) = l.count t := by
  induction l with
  | nil => rfl
  | cons a rest ih =>
    simp only [List.map_cons, List.count_cons, ih]
    by_cases ha : a = t
    · simp [ha]
    · have : ¬ (REv.block a = REv.block t) := by
        intro hcontra
        exact ha (by injection hcontra)
      simp [ha, this]

lemma handleConversation_complete_count (oc : GenOutcome) :
    (handleConversation oc).countP (fun e => decide (e = REv.complete)) = 1 := by
  cases oc with
  | ok bs =>
    simp only [handleConversation, List.countP_cons, List.countP_append]
    have h0 : (List.countP (fun e => decide (e = REv.complete))
        ((bs.filter (fun b => decide (pyStrip b ≠ []))).map REv.block)) = 0 := by
      apply List.countP_eq_zero.mpr
      intro e he
      obtain ⟨b, _, rfl⟩ := List.mem_map.mp he
      simp
    simp [h0]
  | fail bs =>
    simp only [handleConversation, List.countP_cons, List.countP_append]
    have h0 : (List.countP (fun e => decide (e = REv.complete))
        ((bs.filter (fun b => decide (pyStrip b ≠ []))).map REv.block)) = 0 := by
      apply List.countP_eq_zero.mpr
      intro e he
      obtain ⟨b, _, rfl⟩ := List.mem_map.mp he
      simp
    simp [h0]

lemma processFrom_complete_count (i : Nat) (ocs : List GenOutcome) :
    (processFrom i ocs).countP (fun te => decide (te.2 = REv.complete))
      = ocs.length := by
  induction ocs generalizing i with
  | nil => rfl
  | cons oc rest ih =>
    rw [processFrom, List.countP_append, List.countP_map, ih]
    have : (List.countP ((fun te : Nat × REv => decide (te.2 = REv.complete))
        ∘ fun e => (i, e)) (handleConversation oc)) = 1 := by
      have heq : ((fun te : Nat × REv => decide (te.2 = REv.complete))
          ∘ fun e : REv => (i, e)) = fun e => decide (e = REv.complete) := by
        funext e
        rfl
      rw [heq]
      exact handleConversation_complete_count oc
    rw [this]
    simp [List.length_cons]
    omega

/-- C2. When a turn's generation stream raises (after yielding any prefix
of blocks, none of which equals the fallback text — including the
raises-immediately case `bs = []`), `_handle_conversation` delivers the
configured fallback text through the block callback exactly once, its
`finally` still fires the completion callback as the trace's last event,
and the sequential processor completes every queued turn (one `complete`
event per turn), so the pipeline never wedges. -/
theorem turn_fallback_exactly_once (bs : List (List Char))
    (h : fallbackText ∉ bs) :
    (handleConversation (GenOutcome.fail bs)).count (REv.block fallbackText) = 1
    ∧ (handleConversation (GenOutcome.fail bs)).getLast? = some REv.complete
    ∧ ∀ ocs : List GenOutcome,
        (processResponses ocs).countP (fun te => decide (te.2 = REv.complete))
          = ocs.length := by
  refine ⟨?_, ?_, fun ocs => processFrom_complete_count 0 ocs⟩
  · have hnot : fallbackText ∉ bs.filter (fun b => decide (pyStrip b ≠ [])) := by
      intro hmem
      exact h (List.mem_of_mem_filter hmem)
    simp only [handleConversation, List.count_cons, List.count_append]
    have h1 : ((bs.filter (fun b => decide (pyStrip b ≠ []))).map REv.block).count
        (REv.block fallbackText) = 0 := by
      rw [count_map_block]
      exact List.count_eq_zero.mpr hnot
    rw [h1]
    simp [beq_iff_eq]
  · show (REv.start :: (((bs.filter (fun b => decide (pyStrip b ≠ []))).map REv.block
        ++ [REv.block fallbackText]) ++ [REv.complete])).getLast? = some REv.complete
    rw [← List.cons_append, List.getLast?_concat]

/-- Witness for C2: the generation engine raising on every call (no blocks
at all) produces exactly one fallback block followed by completion. -/
theorem turn_fallback_exactly_once_witness :
    (fallbackText ∉ ([] : List (List Char)))
    ∧ (handleConversation (GenOutcome.fail [])).count (REv.block fallbackText) = 1
    ∧ (handleConversation (GenOutcome.fail [])).getLast? = some REv.complete := by
  have h := turn_fallback_exactly_once [] (by simp)
  exact ⟨by simp, h.1, h.2.1⟩

/-! ## AudioManager (`services/audio_manager.py`)

`PendEntry` models one value of `self._pending_audio` (the wall-clock
`timestamp` field is omitted from the embedding). `add_pending_audio` and
`get_pending_audio` are the barge-in buffer operations. `AudioSt` captures
the observable playback state used by `interrupt_and_clear`: whether the
playback device reports playing, whether a speak task is in flight, the
`_is_speaking` flag, and the speech hooks fired so far. Cancelling the
in-flight task makes the `await` inside `speak_streaming` raise
`CancelledError`, which its `except Exception` does not catch, so the
`finally` of `speak_streaming` (lines 141-147) runs its scoped cleanup —
`_is_speaking = False` and the `on_speech_end` hook; that cleanup is folded
into the cancellation step here. -/

structure PendEntry where
  user_display_name : List Char
  fragments : List (List Char)
deriving DecidableEq

/-- `AudioManager.add_pending_audio` (lines 70-87): create the user's entry
on first use, then append the fragment. -/
def add_pending_audio (p : List (Nat × PendEntry)) (user_id : Nat)
    (user_display_name fragment : List Char) : List (Nat × PendEntry) :=
  match dictGet p user_id with
  | none => dictSet p user_id ⟨user_display_name, [fragment]⟩
  | some e => dictSet p user_id ⟨e.user_display_name, e.fragments ++ [fragment]⟩

/-- `AudioManager.get_pending_audio` (lines 89-100): return a copy of the
pending dict and clear it. -/
def get_pending_audio (p : List (Nat × PendEntry)) :
    List (Nat × PendEntry) × List (Nat × PendEntry) :=
  (p, [])

inductive AEv
  | speechStart
  | speechEnd
deriving DecidableEq

structure AudioSt where
  playing : Bool
  taskActive : Bool
  isSpeaking : Bool
  events : List AEv
deriving DecidableEq

/-- `AudioManager.interrupt_and_clear` (lines 184-201): stop the playback
device if it is playing, cancel the in-flight speech task and await it
(running the cancelled speak cycle's scoped cleanup, which resets
`_is_speaking` and fires `on_speech_end`), then force `_is_speaking` to
false. -/
def interrupt_and_clear (st : AudioSt) : AudioSt :=
  let st1 := if st.playing then { st with playing := false } else st
  let st2 :=
    if st1.taskActive then
      { st1 with
        taskActive := false
        isSpeaking := false
        events := st1.events ++ [AEv.speechEnd] }
    else st1
  { st2 with isSpeaking := false }

/-- C6. `interrupt_and_clear` stops any playback in progress, cancels and
awaits the in-flight speak task, forces `is_speaking` to false, and the
`on_speech_end` hook fires (through the cancelled speak cycle's cleanup)
exactly when a speak task was in flight; with nothing playing, no task and
`is_speaking` already false it leaves the state unchanged, and it is total
(never raises) on every state. -/
theorem interrupt_clears_state (st : AudioSt) :
    (interrupt_and_clear st).playing = false
    ∧ (interrupt_and_clear st).taskActive = false
    ∧ (interrupt_and_clear st).isSpeaking = false
    ∧ (st.taskActive = true →
        (interrupt_and_clear st).events = st.events ++ [AEv.speechEnd])
    ∧ (st.taskActive = false → (interrupt_and_clear st).events = st.events)
    ∧ (st.playing = false → st.taskActive = false → st.isSpeaking = false →
        interrupt_and_clear st = st) := by
  obtain ⟨p, t, s, evs⟩ := st
  cases p <;> cases t <;> cases s <;>
    simp [interrupt_and_clear]

/-- Witness for C6: interrupting mid-playback fires `on_speech_end` and
resets the state; interrupting the idle state is the identity. -/
theorem interrupt_clears_state_witness :
    ((true : Bool) = true
      ∧ (interrupt_and_clear ⟨true, true, true, []⟩).events = [] ++ [AEv.speechEnd]
      ∧ (interrupt_and_clear ⟨true, true, true, []⟩).isSpeaking = false)
    ∧ ((false : Bool) = false
      ∧ interrupt_and_clear ⟨false, false, false, [AEv.speechStart]⟩
          = ⟨false, false, false, [AEv.speechStart]⟩) := by
  have h1 := interrupt_clears_state ⟨true, true, true, []⟩
  have h2 := interrupt_clears_state ⟨false, false, false, [AEv.speechStart]⟩
  exact ⟨⟨rfl, h1.2.2.2.1 rfl, h1.2.2.1⟩, ⟨rfl, h2.2.2.2.2.2 rfl rfl rfl⟩⟩

/-! ## Orchestrator audio-queue dispatch (`run/orchestrator.py`)

`processQueueItem` is the body of `_process_audio_queue` for one dequeued
item (lines 133-139): while the agent is speaking the fragment goes to the
AudioManager's pending buffer, otherwise to the ConversationManager.
`process_pending_audio` is `_process_pending_audio` (lines 317-336), which
runs after a turn's speech has finished (it is invoked from
`_on_response_complete`, by which point every `speak_streaming` of the turn
has fired `on_speech_end`): it drains the pending dict and re-submits each
user's fragments, joined with single spaces and stripped, through
`ConversationManager.add_fragment`. -/

structure OrchState where
  pending : List (Nat × PendEntry)
  conv : ConvState
deriving DecidableEq

/-- One dequeued audio item (lines 133-139 of `_process_audio_queue`). -/
def processQueueItem (st : OrchState) (speaking : Bool) (user_id : Nat)
    (user_display_name text : List Char) : OrchState :=
  if speaking then
    { st with pending := add_pending_audio st.pending user_id user_display_name text }
  else
    { st with conv := add_fragment st.conv user_id user_display_name text }

/-- `_process_pending_audio`: drain the pending dict (via
`get_pending_audio`) and re-submit each non-empty fragment list, joined
and stripped, as a fresh fragment. -/
def process_pending_audio (st : OrchState) : OrchState :=
  { pending := (get_pending_audio st.pending).2
    conv :=
      (get_pending_audio st.pending).1.foldl
        (fun c ue =>
          if ue.2.fragments ≠ [] then
            add_fragment c ue.1 ue.2.user_display_name
              (pyStrip (joinSpace ue.2.fragments))
          else c)
        st.conv }

inductive OrchEv
  | frag (speaking : Bool) (user_id : Nat) (user_display_name text : List Char)
  | drain

def evSpeaking : OrchEv → Bool
  | .frag s _ _ _ => s
  | .drain => false

def orchStep (st : OrchState) : OrchEv → OrchState
  | .frag s u nm t => processQueueItem st s u nm t
  | .drain => process_pending_audio st

def runOrch (st : OrchState) (evs : List OrchEv) : OrchState :=
  evs.foldl orchStep st

/-- The fragment texts of user `u` currently held in the pending dict. -/
def pendFragsOf (p : List (Nat × PendEntry)) (u : Nat) : List (List Char) :=
  ((dictGet p u).map PendEntry.fragments).getD []

/-- The texts of the events of user `u` in an event list. -/
def fragTextsFor (u : Nat) (evs : List OrchEv) : List (List Char) :=
  evs.filterMap
    (fun e =>
      match e with
      | .frag _ u' _ t => if u' = u then some t else none
      | .drain => none)

lemma pendFrags_add_self (p : List (Nat × PendEntry)) (u : Nat) (nm t : List Char) :
    pendFragsOf (add_pending_audio p u nm t) u = pendFragsOf p u ++ [t] := by
  unfold add_pending_audio pendFragsOf
  cases hg : dictGet p u with
  | none => simp [dictGet_set_self, hg]
  | some e => simp [dictGet_set_self, hg]

lemma pendFrags_add_other (p : List (Nat × PendEntry)) {u u' : Nat}
    (nm t : List Char) (h : u ≠ u') :
    pendFragsOf (add_pending_audio p u' nm t) u = pendFragsOf p u := by
  unfold add_pending_audio pendFragsOf
  cases hg : dictGet p u' with
  | none => rw [dictGet_set_other _ _ h]
  | some e => rw [dictGet_set_other _ _ h]

/-- C4. While the agent is speaking, every dequeued fragment is appended to
that speaker's pending buffer, in arrival order, and the
ConversationManager state — buffers and turn queue alike — is untouched,
so no fragment seen during speech can produce a ConversationTurn before
the speech ends and the drain step runs. -/
theorem speaking_fragments_buffered (st : OrchState) (evs : List OrchEv)
    (h : ∀ e ∈ evs, evSpeaking e = true) :
    (runOrch st evs).conv = st.conv
    ∧ ∀ u, pendFragsOf (runOrch st evs).pending u
        = pendFragsOf st.pending u ++ fragTextsFor u evs := by
  induction evs generalizing st with
  | nil => exact ⟨rfl, fun u => by simp [runOrch, fragTextsFor]⟩
  | cons e rest ih =>
    cases e with
    | drain => exact absurd (h .drain (by simp)) (by simp [evSpeaking])
    | frag s u' nm t =>
      have hs : s = true := h (.frag s u' nm t) (by simp)
      subst hs
      have hstep : orchStep st (.frag true u' nm t)
          = { st with pending := add_pending_audio st.pending u' nm t } := rfl
      have hrest := ih { st with pending := add_pending_audio st.pending u' nm t }
        (fun e he => h e (List.mem_cons_of_mem _ he))
      refine ⟨?_, ?_⟩
      · show (runOrch st (.frag true u' nm t :: rest)).conv = st.conv
        rw [runOrch, List.foldl_cons, hstep]
        exact hrest.1
      · intro u
        show pendFragsOf (runOrch st (.frag true u' nm t :: rest)).pending u = _
        rw [runOrch, List.foldl_cons, hstep]
        have hr := hrest.2 u
        rw [runOrch] at hr
        rw [hr]
        by_cases hu : u' = u
        · subst hu
          rw [pendFrags_add_self]
          simp [fragTextsFor, List.filterMap_cons]
        · rw [pendFrags_add_other _ _ _ (fun hh => hu hh.symm)]
          simp [fragTextsFor, List.filterMap_cons, hu]

/-- Witness for C4: two fragments from speaker 7 arriving mid-speech stay
in the pending buffer and leave the conversation state untouched. -/
theorem speaking_fragments_buffered_witness :
    (∀ e ∈ [OrchEv.frag true 7 "Ana".data "hola".data,
            OrchEv.frag true 7 "Ana".data "que tal".data], evSpeaking e = true)
    ∧ (runOrch ⟨[], ⟨[], []⟩⟩
        [OrchEv.frag true 7 "Ana".data "hola".data,
         OrchEv.frag true 7 "Ana".data "que tal".data]).conv = ⟨[], []⟩
    ∧ pendFragsOf (runOrch ⟨[], ⟨[], []⟩⟩
        [OrchEv.frag true 7 "Ana".data "hola".data,
         OrchEv.frag true 7 "Ana".data "que tal".data]).pending 7
      = pendFragsOf ([] : List (Nat × PendEntry)) 7
          ++ fragTextsFor 7 [OrchEv.frag true 7 "Ana".data "hola".data,
                             OrchEv.frag true 7 "Ana".data "que tal".data] := by
  have h := speaking_fragments_buffered ⟨[], ⟨[], []⟩⟩
    [OrchEv.frag true 7 "Ana".data "hola".data,
     OrchEv.frag true 7 "Ana".data "que tal".data]
    (by intro e he; fin_cases he <;> rfl)
  exact ⟨by intro e he; fin_cases he <;> rfl, h.1, h.2 7⟩

/-! ### Drain of the pending buffers (claim C5) -/

/-- The buffered fragments of user `u` inside the ConversationManager. -/
def convBufOf (c : ConvState) (u : Nat) : List (List Char) :=
  (dictGet c.buffers u).getD []

lemma add_fragment_buf_self (c : ConvState) (u : Nat) (nm t : List Char) :
    convBufOf (add_fragment c u nm t) u
      = convBufOf c u ++ (if pyStrip t = [] then [] else [pyStrip t]) := by
  unfold add_fragment convBufOf
  by_cases ht : pyStrip t = []
  · simp [ht]
  · simp [ht, dictGet_set_self]

lemma add_fragment_buf_other (c : ConvState) {u u' : Nat} (nm t : List Char)
    (h : u ≠ u') : convBufOf (add_fragment c u' nm t) u = convBufOf c u := by
  unfold add_fragment convBufOf
  by_cases ht : pyStrip t = []
  · simp [ht]
  · simp [ht, dictGet_set_other _ _ h]

/-- The fold performed by `_process_pending_audio` over the drained dict. -/
def drainFold (c : ConvState) (es : List (Nat × PendEntry)) : ConvState :=
  es.foldl
    (fun c ue =>
      if ue.2.fragments ≠ [] then
        add_fragment c ue.1 ue.2.user_display_name (pyStrip (joinSpace ue.2.fragments))
      else c)
    c

lemma process_pending_eq_drainFold (st : OrchState) :
    process_pending_audio st = ⟨[], drainFold st.conv st.pending⟩ := rfl

lemma drainFold_queue (c : ConvState) (es : List (Nat × PendEntry)) :
    (drainFold c es).queue = c.queue := by
  induction es generalizing c with
  | nil => rfl
  | cons ue rest ih =>
    rw [drainFold, List.foldl_cons]
    by_cases hf : ue.2.fragments ≠ []
    · rw [if_pos hf, ← drainFold, ih, add_fragment_queue]
    · rw [if_neg hf, ← drainFold, ih]

lemma drainFold_buf_not_mem (c : ConvState) (es : List (Nat × PendEntry))
    {u : Nat} (h : u ∉ es.map Prod.fst) :
    convBufOf (drainFold c es) u = convBufOf c u := by
  induction es generalizing c with
  | nil => rfl
  | cons ue rest ih =>
    have hu : u ≠ ue.1 := by
      intro hh
      exact h (by simp [hh])
    have hrest : u ∉ rest.map Prod.fst := by
      intro hh
      exact h (by simp [hh])
    rw [drainFold, List.foldl_cons]
    by_cases hf : ue.2.fragments ≠ []
    · rw [if_pos hf, ← drainFold, ih _ hrest, add_fragment_buf_other _ _ _ hu]
    · rw [if_neg hf, ← drainFold, ih _ hrest]

lemma drainFold_buf_of_get (c : ConvState) (es : List (Nat × PendEntry))
    (hnd : (es.map Prod.fst).Nodup) {u : Nat} {e : PendEntry}
    (hget : dictGet es u = some e) (hne : e.fragments ≠ []) :
    convBufOf (drainFold c es) u
      = convBufOf c u
        ++ (if pyStrip (joinSpace e.fragments) = [] then []
            else [pyStrip (joinSpace e.fragments)]) := by
  induction es generalizing c with
  | nil => cases hget
  | cons ue rest ih =>
    obtain ⟨k, w⟩ := ue
    rw [List.map_cons, List.nodup_cons] at hnd
    by_cases hk : k = u
    · subst hk
      rw [dictGet, if_pos rfl] at hget
      cases hget
      rw [drainFold, List.foldl_cons]
      simp only [if_pos hne]
      rw [← drainFold, drainFold_buf_not_mem _ _ hnd.1,
        add_fragment_buf_self, pyStrip_idem]
    · rw [dictGet, if_neg hk] at hget
      rw [drainFold, List.foldl_cons]
      by_cases hf : w.fragments ≠ []
      · rw [if_pos hf, ← drainFold,
          ih _ hnd.2 hget, add_fragment_buf_other _ _ _ (fun hh => hk hh.symm)]
      · rw [if_neg hf, ← drainFold, ih _ hnd.2 hget]

/-- Counterexample to C5 as stated: draining a non-empty pending buffer
does NOT enqueue any ConversationTurn — the turn queue stays empty and the
drained text sits in the user's debounce buffer instead, waiting for a
fresh silence timeout. -/
theorem drain_bypasses_debounce_refuted :
    (process_pending_audio
        ⟨[(1, ⟨"Ana".data, ["hola como estas".data]⟩)], ⟨[], []⟩⟩).conv.queue = []
    ∧ (process_pending_audio
        ⟨[(1, ⟨"Ana".data, ["hola como estas".data]⟩)], ⟨[], []⟩⟩).conv.buffers
      = [(1, ["hola como estas".data])] := by
  constructor <;> decide

/-- C5 (amended). The drain atomically empties every pending buffer and
re-submits, for each speaker with pending fragments, the single-space join
of those fragments (stripped) through `add_fragment`: the joined text lands
in that speaker's debounce buffer, and no ConversationTurn is enqueued by
the drain itself — re-submission goes through the normal debounce wait
rather than bypassing it. -/
theorem drain_empties_and_resubmits (st : OrchState)
    (hnd : (st.pending.map Prod.fst).Nodup) :
    (process_pending_audio st).pending = []
    ∧ (process_pending_audio st).conv.queue = st.conv.queue
    ∧ ∀ u e, dictGet st.pending u = some e → e.fragments ≠ [] →
        convBufOf (process_pending_audio st).conv u
          = convBufOf st.conv u
            ++ (if pyStrip (joinSpace e.fragments) = [] then []
                else [pyStrip (joinSpace e.fragments)]) := by
  rw [process_pending_eq_drainFold]
  exact ⟨rfl, drainFold_queue st.conv st.pending,
    fun u e hget hne => drainFold_buf_of_get st.conv st.pending hnd hget hne⟩

/-- Witness for C5 (amended): a drained two-fragment buffer for speaker 1
is emptied and its joined text "hola como estas" enters the debounce
buffer, with the turn queue untouched. -/
theorem drain_empties_and_resubmits_witness :
    (([(1, PendEntry.mk "Ana".data ["hola".data, "como estas".data])].map
        Prod.fst).Nodup
      ∧ dictGet [(1, PendEntry.mk "Ana".data ["hola".data, "como estas".data])] 1
          = some ⟨"Ana".data, ["hola".data, "como estas".data]⟩
      ∧ (["hola".data, "como estas".data] : List (List Char)) ≠ [])
    ∧ (process_pending_audio
        ⟨[(1, ⟨"Ana".data, ["hola".data, "como estas".data]⟩)], ⟨[], []⟩⟩).pending = []
    ∧ (process_pending_audio
        ⟨[(1, ⟨"Ana".data, ["hola".data, "como estas".data]⟩)], ⟨[], []⟩⟩).conv.queue = []
    ∧ convBufOf (process_pending_audio
        ⟨[(1, ⟨"Ana".data, ["hola".data, "como estas".data]⟩)], ⟨[], []⟩⟩).conv 1
      = convBufOf (⟨[], []⟩ : ConvState) 1
        ++ (if pyStrip (joinSpace ["hola".data, "como estas".data]) = [] then []
            else [pyStrip (joinSpace ["hola".data, "como estas".data])]) := by
  have h := drain_empties_and_resubmits
    ⟨[(1, ⟨"Ana".data, ["hola".data, "como estas".data]⟩)], ⟨[], []⟩⟩
    (by decide)
  exact ⟨⟨by decide, by decide, by decide⟩, h.1, h.2.1,
    h.2.2 1 ⟨"Ana".data, ["hola".data, "como estas".data]⟩ (by decide) (by decide)⟩

/-! ## SmartTTSChunker (`tts/chunker.py`)

The chunker state is its configuration plus the accumulation buffer
(`self.buffer`). `process_blocks` is split exactly along the source's
structure: `appendBlock` covers lines 192-212 (classification and buffer
append), `emitStep` covers lines 214-254 (the chunk decision and the final
size validation, with `forceChunkIfTooLong` as `_force_chunk_if_too_long`),
and the end-of-stream flush (lines 256-265) is `finalFlush`. -/

inductive BlockType
  | TINY
  | SMALL
  | MEDIUM
  | LARGE
  | PUNCT
  | WHITESPACE
deriving DecidableEq

def isPunctChar (c : Char) : Bool :=
  c == '.' || c == '!' || c == '?' || c == ';' || c == ':' || c == ','

/-- `SmartTTSChunker._classify_block` (lines 50-71); the regex
`^[.!?;:,\s]*$` holds exactly when every character of the stripped block is
punctuation or whitespace. -/
def classifyBlock (block : List Char) : BlockType :=
  if block = [] then .WHITESPACE
  else if pyStrip block = [] then .WHITESPACE
  else if (pyStrip block).all (fun c => isPunctChar c || isWS c) then .PUNCT
  else if (pyStrip block).length ≤ 3 then .TINY
  else if (pyStrip block).length ≤ 15 then .SMALL
  else if (pyStrip block).length ≤ 50 then .MEDIUM
  else .LARGE

/-- `SmartTTSChunker._should_send_chunk` (lines 73-107): never send under 5
characters; send when ending in a space; otherwise send exactly when the
last space-separated word has at least 4 characters. -/
def shouldSend (text : List Char) : Bool :=
  let t := pyStrip text
  if t.length < 5 then false
  else if t.getLast? = some ' ' then true
  else
    let lastWord := (t.reverse.takeWhile (fun c => c != ' ')).reverse
    if lastWord.length < 4 then false else true

/-- `SmartTTSChunker._has_strong_sentence_ending` (lines 109-113): the
regex `[.!?]+\s*$` searched in the stripped text holds exactly when the
stripped text ends in `.`, `!` or `?`. -/
def hasStrongEnding (text : List Char) : Bool :=
  match (pyStrip text).getLast? with
  | some c => c == '.' || c == '!' || c == '?'
  | none => false

structure Chunker where
  min_chunk_size : Nat
  max_chunk_size : Nat
  buffer : List Char
deriving DecidableEq

/-- Buffer accumulation for one block (lines 192-212): skip falsy blocks;
a whitespace block only adds a separating space; a punctuation block is
appended stripped with no separator; any other block is appended stripped,
preceded by a space unless the buffer already ends with one or the block
starts with one. -/
def appendBlock (st : Chunker) (block : List Char) : Chunker :=
  if block = [] then st
  else if classifyBlock block = .WHITESPACE then
    if st.buffer ≠ [] ∧ ¬ st.buffer.getLast? = some ' ' then
      { st with buffer := st.buffer ++ [' '] }
    else st
  else if classifyBlock block = .PUNCT then
    { st with buffer := st.buffer ++ pyStrip block }
  else
    { st with
      buffer :=
        (if st.buffer ≠ [] ∧ ¬ st.buffer.getLast? = some ' '
              ∧ ¬ block.head? = some ' ' then
          st.buffer ++ [' ']
        else st.buffer) ++ pyStrip block }

/-- First loop of `_force_chunk_if_too_long` (lines 154-160): scan indices
of `text` downward (exclusive lower bound `low`) for a strong terminator
whose prefix passes `_should_send_chunk`. -/
def forcePunctLoop (buffer text : List Char) (low : Nat) : Nat → Option Nat
  | 0 => none
  | i + 1 =>
    if i + 1 ≤ low then none
    else if (match text[i + 1]? with
             | some c => c == '.' || c == '!' || c == '?'
             | none => false)
          && shouldSend (pyStrip (buffer.take (i + 2))) then
      some (i + 1)
    else forcePunctLoop buffer text low i

/-- Second loop of `_force_chunk_if_too_long` (lines 163-173): try shorter
and shorter space-joined word runs; on success cut the raw buffer at the
joined length. The argument is the number of words tried. -/
def forceWordLoop (buffer : List Char) (words : List (List Char)) :
    Nat → Option (List Char × List Char)
  | 0 => none
  | i + 1 =>
    if shouldSend (joinSpace (words.take (i + 1))) then
      some (pyStrip (buffer.take (joinSpace (words.take (i + 1))).length),
            pyStrip (buffer.drop (joinSpace (words.take (i + 1))).length))
    else forceWordLoop buffer words i

/-- Last resort of `_force_chunk_if_too_long` (lines 176-184): cut at the
midpoint; the buffer is replaced either way, and the cut-off front half is
returned only when it has at least 5 characters (otherwise it is dropped). -/
def lastResortSplit (st : Chunker) (text : List Char) : Chunker × Option (List Char) :=
  let c := pyStrip (st.buffer.take (text.length / 2))
  let st' := { st with buffer := pyStrip (st.buffer.drop (text.length / 2)) }
  if 5 ≤ c.length then (st', some c) else (st', none)

/-- `SmartTTSChunker._force_chunk_if_too_long` (lines 142-184). -/
def forceChunkIfTooLong (st : Chunker) : Chunker × Option (List Char) :=
  if st.buffer.length ≤ st.max_chunk_size then (st, none)
  else
    match forcePunctLoop st.buffer (st.buffer.take st.max_chunk_size)
        ((st.buffer.take st.max_chunk_size).length - 50)
        ((st.buffer.take st.max_chunk_size).length - 1) with
    | some i =>
      ({ st with buffer := pyStrip (st.buffer.drop (i + 1)) },
       some (pyStrip (st.buffer.take (i + 1))))
    | none =>
      if (pySplit (st.buffer.take st.max_chunk_size)).length > 1 then
        match forceWordLoop st.buffer (pySplit (st.buffer.take st.max_chunk_size))
            ((pySplit (st.buffer.take st.max_chunk_size)).length - 1) with
        | some (c, b) => ({ st with buffer := b }, some c)
        | none => lastResortSplit st (st.buffer.take st.max_chunk_size)
      else lastResortSplit st (st.buffer.take st.max_chunk_size)

/-- Final size validation of `process_blocks` (lines 243-254): a chunk with
at least 5 stripped characters is emitted; a smaller one is pushed back
onto the front of the buffer. -/
def finishEmit : Chunker × Option (List Char) → Chunker × List (List Char)
  | (st, none) => (st, [])
  | (st, some c) =>
    if 5 ≤ (pyStrip c).length then (st, [c])
    else if st.buffer ≠ [] then ({ st with buffer := c ++ ' ' :: st.buffer }, [])
    else ({ st with buffer := c }, [])

/-- Chunk decision after an append (lines 214-254): force when the
stripped buffer exceeds the maximum; else emit the whole stripped buffer
when it is at least 10 characters with a strong ending and passes
`_should_send_chunk`; else emit it when it reaches the configured minimum
and passes `_should_send_chunk`. -/
def emitStep (st : Chunker) : Chunker × List (List Char) :=
  if (pyStrip st.buffer).length > st.max_chunk_size then
    finishEmit (forceChunkIfTooLong st)
  else if 10 ≤ (pyStrip st.buffer).length ∧ hasStrongEnding (pyStrip st.buffer)
      ∧ shouldSend (pyStrip st.buffer) then
    finishEmit ({ st with buffer := [] }, some (pyStrip st.buffer))
  else if st.min_chunk_size ≤ (pyStrip st.buffer).length
      ∧ shouldSend (pyStrip st.buffer) then
    finishEmit ({ st with buffer := [] }, some (pyStrip st.buffer))
  else (st, [])

/-- One iteration of the `process_blocks` loop: empty and whitespace-only
blocks never reach the emission logic (`continue`). -/
def processBlock (st : Chunker) (block : List Char) : Chunker × List (List Char) :=
  if block = [] then (st, [])
  else if classifyBlock block = .WHITESPACE then (appendBlock st block, [])
  else emitStep (appendBlock st block)

/-- Run the `process_blocks` loop over a finite stream of blocks,
collecting the emitted chunks. -/
def runChunks : Chunker → List (List Char) → Chunker × List (List Char)
  | st, [] => (st, [])
  | st, b :: bs =>
    ((runChunks (processBlock st b).1 bs).1,
     (processBlock st b).2 ++ (runChunks (processBlock st b).1 bs).2)

/-- End-of-stream flush (lines 256-265): emit the stripped remainder when
it has at least 3 characters, otherwise discard it. -/
def finalFlush (st : Chunker) : List (List Char) :=
  if 3 ≤ (pyStrip st.buffer).length then [pyStrip st.buffer] else []

/-- The full generator `process_blocks`: every chunk yielded during the
loop followed by the final flush. -/
def processBlocksAll (st : Chunker) (blocks : List (List Char)) : List (List Char) :=
  (runChunks st blocks).2 ++ finalFlush (runChunks st blocks).1

/-- `smart_streaming_chunker` (lines 268-274): a fresh chunker with the
given minimum chunk size and the default maximum of 200. -/
def smart_streaming_chunker (blocks : List (List Char)) (minSize : Nat := 25) :
    List (List Char) :=
  processBlocksAll ⟨minSize, 200, []⟩ blocks

/-- A chunker with the constructor defaults (`min_chunk_size = 30`,
`max_chunk_size = 200`) and an empty buffer. -/
def defaultChunker : Chunker := ⟨30, 200, []⟩

/-- Whether a run never triggers the buffer-overflow forced split: after
each append the stripped buffer stays within the maximum chunk size. -/
def noForceRun : Chunker → List (List Char) → Bool
  | _, [] => true
  | st, b :: bs =>
    decide ((pyStrip (appendBlock st b).buffer).length ≤ st.max_chunk_size)
      && noForceRun (processBlock st b).1 bs

/-! ### Chunk size floors (claim C8) -/

lemma letters_nil : letters [] = [] := rfl

lemma finishEmit_five (p : Chunker × Option (List Char)) :
    ∀ c ∈ (finishEmit p).2, 5 ≤ (pyStrip c).length := by
  obtain ⟨st, o⟩ := p
  cases o with
  | none => intro c hc; simp [finishEmit] at hc
  | some x =>
    intro c hc
    simp only [finishEmit] at hc
    split_ifs at hc with h1 h2
    · simp at hc
      subst hc
      exact h1
    · simp at hc
    · simp at hc

lemma emitStep_five (st : Chunker) :
    ∀ c ∈ (emitStep st).2, 5 ≤ (pyStrip c).length := by
  intro c hc
  unfold emitStep at hc
  split_ifs at hc with h1 h2 h3
  · exact finishEmit_five _ c hc
  · exact finishEmit_five _ c hc
  · exact finishEmit_five _ c hc
  · simp at hc

lemma processBlock_five (st : Chunker) (b : List Char) :
    ∀ c ∈ (processBlock st b).2, 5 ≤ (pyStrip c).length := by
  intro c hc
  unfold processBlock at hc
  split_ifs at hc
  · simp at hc
  · simp at hc
  · exact emitStep_five _ c hc

lemma runChunks_five (st : Chunker) (bs : List (List Char)) :
    ∀ c ∈ (runChunks st bs).2, 5 ≤ (pyStrip c).length := by
  induction bs generalizing st with
  | nil => intro c hc; simp [runChunks] at hc
  | cons b rest ih =>
    intro c hc
    rw [runChunks] at hc
    rcases List.mem_append.mp hc with h | h
    · exact processBlock_five st b c h
    · exact ih (processBlock st b).1 c h

/-- C8. Every chunk the chunker emits while the stream is still running
has at least 5 characters once stripped, and every chunk of the full run
(including the final flush at exhaustion) has at least 3; smaller final
remainders are discarded, never emitted. -/
theorem chunk_min_sizes (st : Chunker) (blocks : List (List Char))
    (c : List Char) (hc : c ∈ processBlocksAll st blocks) :
    3 ≤ (pyStrip c).length
    ∧ (c ∈ (runChunks st blocks).2 → 5 ≤ (pyStrip c).length) := by
  refine ⟨?_, fun hr => runChunks_five st blocks c hr⟩
  rcases List.mem_append.mp hc with h | h
  · have h5 := runChunks_five st blocks c h
    omega
  · unfold finalFlush at h
    split_ifs at h with h3
    · simp at h
      subst h
      rw [pyStrip_idem]
      exact h3
    · simp at h

/-- Witness for C8: a single sentence is emitted as one mid-stream chunk
of stripped length at least 5 (hence at least 3). -/
theorem chunk_min_sizes_witness :
    ("Hello everyone today.".data
        ∈ processBlocksAll defaultChunker ["Hello everyone today.".data])
    ∧ 3 ≤ (pyStrip "Hello everyone today.".data).length
    ∧ ("Hello everyone today.".data
          ∈ (runChunks defaultChunker ["Hello everyone today.".data]).2 →
        5 ≤ (pyStrip "Hello everyone today.".data).length) := by
  have h := chunk_min_sizes defaultChunker ["Hello everyone today.".data]
    "Hello everyone today.".data (by decide)
  exact ⟨by decide, h.1, h.2⟩

/-! ### The scenario of claim C9 -/

/-- Counterexample to C9 as stated: on fragments "Hi", ",", " there", "."
with minimum chunk size 5, the chunker does not emit the chunk
"Hi, there." — the append rule strips the leading space of " there"
without inserting a separator, and the trailing "." arrives after the
buffer was already emitted. -/
theorem chunker_scenario_refuted :
    ¬ (processBlocksAll ⟨5, 200, []⟩
        ["Hi".data, ",".data, " there".data, ".".data] = ["Hi, there.".data]) := by
  decide

/-- C9 (amended). On fragments "Hi", ",", " there", "." with minimum chunk
size 5, the chunker emits exactly one chunk, "Hi,there": the space of
" there" is dropped by the append rule, the 8-character buffer "Hi,there"
already satisfies the minimum-size und last-word rules and is emitted, and
the final "." is then discarded at exhaustion as an under-3-character
remainder. -/
theorem chunker_scenario_actual :
    processBlocksAll ⟨5, 200, []⟩
        ["Hi".data, ",".data, " there".data, ".".data] = ["Hi,there".data] := by
  decide

/-! ### Round-trip of the chunker (claim C7) -/

lemma strip_nil_of_classify_ws {b : List Char} (hb : b ≠ [])
    (h : classifyBlock b = .WHITESPACE) : pyStrip b = [] := by
  by_contra hs
  unfold classifyBlock at h
  rw [if_neg hb, if_neg hs] at h
  split_ifs at h

lemma appendBlock_max (st : Chunker) (b : List Char) :
    (appendBlock st b).max_chunk_size = st.max_chunk_size := by
  unfold appendBlock
  split_ifs <;> rfl

lemma appendBlock_letters (st : Chunker) (b : List Char) :
    letters (appendBlock st b).buffer = letters st.buffer ++ letters b := by
  by_cases hb : b = []
  · simp [appendBlock, hb, letters_nil]
  · by_cases hw : classifyBlock b = .WHITESPACE
    · have hlb : letters b = [] :=
        letters_eq_nil_of_pyStrip_nil (strip_nil_of_classify_ws hb hw)
      unfold appendBlock
      rw [if_neg hb, if_pos hw, hlb]
      split_ifs with hsp
      · rw [letters_append_space]
        simp
      · simp
    · by_cases hp : classifyBlock b = .PUNCT
      · unfold appendBlock
        rw [if_neg hb, if_neg hw, if_pos hp, letters_append, letters_pyStrip]
      · unfold appendBlock
        rw [if_neg hb, if_neg hw, if_neg hp]
        split_ifs with hsp
        · rw [letters_append, letters_append_space, letters_pyStrip]
        · rw [letters_append, letters_pyStrip]

lemma finishEmit_letters_some (st : Chunker) (c : List Char) :
    letters (finishEmit (st, some c)).2.join
      ++ letters (finishEmit (st, some c)).1.buffer
      = letters c ++ letters st.buffer := by
  simp only [finishEmit]
  split_ifs with h1 h2
  · simp
  · simp [letters_nil, letters_append, letters_space_cons]
  · push_neg at h2
    simp [h2, letters_nil]

lemma emitStep_letters (st : Chunker)
    (h : (pyStrip st.buffer).length ≤ st.max_chunk_size) :
    letters (emitStep st).2.join ++ letters (emitStep st).1.buffer
      = letters st.buffer := by
  unfold emitStep
  rw [if_neg (not_lt.mpr h)]
  split_ifs with h2 h3
  · rw [finishEmit_letters_some, letters_pyStrip]
    simp [letters_nil]
  · rw [finishEmit_letters_some, letters_pyStrip]
    simp [letters_nil]
  · simp [letters_nil]

lemma processBlock_letters (st : Chunker) (b : List Char)
    (h : (pyStrip (appendBlock st b).buffer).length ≤ st.max_chunk_size) :
    letters (processBlock st b).2.join ++ letters (processBlock st b).1.buffer
      = letters st.buffer ++ letters b := by
  unfold processBlock
  split_ifs with hb hw
  · simp [hb, letters_nil]
  · rw [appendBlock_letters]
    simp [letters_nil]
  · have h' : (pyStrip (appendBlock st b).buffer).length
        ≤ (appendBlock st b).max_chunk_size := by
      rw [appendBlock_max]
      exact h
    rw [emitStep_letters _ h', appendBlock_letters]

lemma runChunks_letters (st : Chunker) (bs : List (List Char))
    (h : noForceRun st bs = true) :
    letters (runChunks st bs).2.join ++ letters (runChunks st bs).1.buffer
      = letters st.buffer ++ letters bs.join := by
  induction bs generalizing st with
  | nil => simp [runChunks, letters_nil]
  | cons b rest ih =>
    rw [noForceRun, Bool.and_eq_true, decide_eq_true_eq] at h
    obtain ⟨h1, h2⟩ := h
    rw [runChunks]
    have hpb := processBlock_letters st b h1
    have hr := ih (processBlock st b).1 h2
    simp only [List.join_append, letters_append, List.join_cons]
    rw [List.append_assoc, hr, ← List.append_assoc, hpb, List.append_assoc]

/-- Single-space normalisation of a text, as the spec's words describe it:
collapse whitespace runs to single spaces and trim the ends. -/
def specNormalize (l : List Char) : List Char := joinSpace (pySplit l)

/-- Modelled from the spec (refinement side of the round-trip claim):
"concatenating all emitted chunks (trimmed, re-joined with single spaces)
reproduces the original input text stream (under the same single-space
normalization)". -/
def specRoundTrip (st : Chunker) (blocks : List (List Char)) : Prop :=
  joinSpace ((processBlocksAll st blocks).map pyStrip)
    = specNormalize blocks.join

/-- Counterexample to C7 as stated: feeding "Hello", " world", "!" to the
default chunker emits the single chunk "Helloworld!" (the append rule eats
the leading space of " world"), which differs from the normalised input
"Hello world!"; the buffer ends empty, so no sub-3-character discard is
involved. -/
theorem chunker_roundtrip_refuted :
    ¬ specRoundTrip defaultChunker ["Hello".data, " world".data, "!".data]
    ∧ (runChunks defaultChunker ["Hello".data, " world".data, "!".data]).1.buffer
        = [] := by
  constructor
  · unfold specRoundTrip specNormalize
    decide
  · decide

/-- C7 (amended). For every run that never triggers the buffer-overflow
forced split, the chunker loses and duplicates nothing except whitespace:
the non-whitespace characters of the emitted chunks, concatenated in
order, equal the non-whitespace characters of the concatenated input —
either exactly, or up to a final remainder whose stripped length is under
the 3-character floor, discarded at exhaustion. (Inter-word spaces are not
always reproduced: the append rule drops a block's leading space after a
punctuation block, and a forced midpoint split may drop an under-5
fragment entirely, which is why the claim's space-rejoined equality and
its never-dropped clause fail.) -/
theorem chunker_roundtrip_letters (st : Chunker) (blocks : List (List Char))
    (hbuf : st.buffer = []) (hnf : noForceRun st blocks = true) :
    letters (processBlocksAll st blocks).join = letters blocks.join
    ∨ ((pyStrip (runChunks st blocks).1.buffer).length < 3
        ∧ letters (processBlocksAll st blocks).join
            ++ letters (runChunks st blocks).1.buffer = letters blocks.join) := by
  have hrun := runChunks_letters st blocks hnf
  rw [hbuf, letters_nil, List.nil_append] at hrun
  unfold processBlocksAll finalFlush
  by_cases h3 : 3 ≤ (pyStrip (runChunks st blocks).1.buffer).length
  · left
    rw [if_pos h3]
    simp only [List.join_append, letters_append, List.join_cons, List.join_nil,
      List.append_nil]
    rw [letters_pyStrip]
    exact hrun
  · right
    rw [if_neg h3]
    constructor
    · omega
    · simpa using hrun

/-- Witness for C7 (amended): a single in-budget sentence block round-trips
its non-whitespace characters exactly. -/
theorem chunker_roundtrip_letters_witness :
    (defaultChunker.buffer = []
      ∧ noForceRun defaultChunker ["Hello everyone today.".data] = true)
    ∧ (letters (processBlocksAll defaultChunker
          ["Hello everyone today.".data]).join
        = letters (["Hello everyone today.".data] : List (List Char)).join
      ∨ ((pyStrip (runChunks defaultChunker
            ["Hello everyone today.".data]).1.buffer).length < 3
          ∧ letters (processBlocksAll defaultChunker
              ["Hello everyone today.".data]).join
            ++ letters (runChunks defaultChunker
                ["Hello everyone today.".data]).1.buffer
            = letters (["Hello everyone today.".data] : List (List Char)).join)) := by
  refine ⟨⟨rfl, by decide⟩, ?_⟩
  exact chunker_roundtrip_letters defaultChunker ["Hello everyone today.".data]
    rfl (by decide)

/-! ## VertexAgentEngine.chat_stream (`m_agent/vertex_llm.py`)

One call of `self.chatSession.send_message(prompt, stream=True)` and the
iteration over it either finishes, yielding a list of response texts, or
raises with some message after yielding a prefix (`VertexAttempt.raises`).
`chat_stream` retries up to `max_retries = 2` times, classifying the
lowercased exception text, rephrasing the prompt on safety blocks, and
falling back to canned responses on the last attempt; an exhausted loop
(line 141) also yields the generic fallback. The mutable
`self.fallback_index` is the `fbIdx` parameter; it only selects which
canned response is returned. -/

def fallback_responses : List (List Char) :=
  ["Entiendo, ¿en qué más puedo ayudarte?".data,
   "Interesante, cuéntame más al respecto.".data,
   "Perfecto, ¿hay algo específico que te gustaría saber?".data,
   "Muy bien, ¿cómo puedo asistirte hoy?".data,
   "Entendido, ¿tienes alguna pregunta para mí?".data]

def safetyResponses : List (List Char) :=
  ["Entiendo tu mensaje. ¿Hay algo más en lo que pueda ayudarte?".data,
   "Perfecto, ¿qué más te gustaría saber?".data,
   "Muy bien, estoy aquí para asistirte con lo que necesites.".data]

/-- `_get_generic_fallback_response` (lines 206-213). -/
def genericFallback (idx : Nat) : List Char :=
  fallback_responses.getD (idx % fallback_responses.length) []

/-- `_get_safety_fallback_response` (lines 193-204). -/
def safetyFallback (idx : Nat) : List Char :=
  safetyResponses.getD (idx % safetyResponses.length) []

/-- `_get_fallback_response` (lines 172-191): keyword-driven canned
responses over the lowercased prompt. -/
def contextualFallback (prompt : List Char) (idx : Nat) : List Char :=
  if ["hola".data, "saludos".data, "buenos".data, "hi".data, "hello".data].any
      (fun w => hasSub (toLowerL prompt) w) then
    "¡Hola! Es un gusto conversar contigo. ¿En qué puedo ayudarte hoy?".data
  else if ["cómo".data, "como".data, "qué".data, "que".data,
      "cuál".data, "cual".data].any (fun w => hasSub (toLowerL prompt) w) then
    "Es una buena pregunta. Me gustaría ayudarte con más información. ¿Podrías ser más específico?".data
  else if ["gracias".data, "thanks".data, "thank".data].any
      (fun w => hasSub (toLowerL prompt) w) then
    "¡De nada! Estoy aquí para ayudarte cuando lo necesites.".data
  else if ["adiós".data, "chao".data, "bye".data, "hasta".data].any
      (fun w => hasSub (toLowerL prompt) w) then
    "¡Hasta pronto! Ha sido un placer conversar contigo.".data
  else genericFallback idx

/-- `_rephrase_prompt` (lines 158-170). -/
def rephrasePrompt (p : List Char) : List Char :=
  if hasSub p "Usuario".data && hasSub p "dijo:".data then
    match afterSub p "dijo:".data with
    | some rest =>
      "El usuario mencionó: ".data ++ pyStrip rest
        ++ ". Responde de manera amigable.".data
    | none => "Responde de manera conversacional a: ".data ++ p
  else "Responde de manera conversacional a: ".data ++ p

/-- Behaviour of one `send_message` attempt. -/
inductive VertexAttempt
  | ok (texts : List (List Char))
  | raises (texts : List (List Char)) (msg : List Char)

/-- The blocks yielded while iterating one attempt's responses (lines
95-100): each response text that is non-empty after stripping is yielded
stripped. -/
def vertexYields (texts : List (List Char)) : List (List Char) :=
  (texts.filter (fun t => decide (pyStrip t ≠ []))).map pyStrip

/-- The retry loop of `chat_stream` (lines 87-141): `a` is the attempt
index, `rem + 1` the number of attempts left (`rem = 0` on the last,
`attempt == max_retries`); a fuel of 0 is the fall-through after the loop
(line 141). -/
def chatStreamLoop (beh : Nat → VertexAttempt) (fbIdx : Nat) :
    List Char → Nat → Nat → List (List Char)
  | _, _, 0 => [genericFallback fbIdx]
  | prompt, a, rem + 1 =>
    match beh a with
    | .ok texts =>
      if vertexYields texts ≠ [] then vertexYields texts
      else if rem = 0 then [contextualFallback prompt fbIdx]
      else chatStreamLoop beh fbIdx prompt (a + 1) rem
    | .raises texts msg =>
      vertexYields texts ++
        (if hasSub (toLowerL msg) "finish reason: 2".data
            || hasSub (toLowerL msg) "safety".data then
          (if rem = 0 then [safetyFallback fbIdx]
           else chatStreamLoop beh fbIdx (rephrasePrompt prompt) (a + 1) rem)
        else if hasSub (toLowerL msg) "model response did not complete".data then
          (if rem = 0 then [contextualFallback prompt fbIdx]
           else chatStreamLoop beh fbIdx prompt (a + 1) rem)
        else if rem = 0 then [genericFallback fbIdx]
        else chatStreamLoop beh fbIdx prompt (a + 1) rem)

/-- `chat_stream`: three attempts (`max_retries = 2`). -/
def chat_stream (beh : Nat → VertexAttempt) (prompt : List Char) (fbIdx : Nat) :
    List (List Char) :=
  chatStreamLoop beh fbIdx prompt 0 3

lemma getD_ne_nil {l : List (List Char)} (hall : ∀ x ∈ l, x ≠ []) {k : Nat}
    (hk : k < l.length) : l.getD k [] ≠ [] := by
  rw [List.getD_eq_getElem l [] hk]
  exact hall _ (List.getElem_mem hk)

lemma genericFallback_ne_nil (idx : Nat) : genericFallback idx ≠ [] := by
  apply getD_ne_nil
  · decide
  · exact Nat.mod_lt _ (by decide)

lemma safetyFallback_ne_nil (idx : Nat) : safetyFallback idx ≠ [] := by
  apply getD_ne_nil
  · decide
  · exact Nat.mod_lt _ (by decide)

lemma contextualFallback_ne_nil (prompt : List Char) (idx : Nat) :
    contextualFallback prompt idx ≠ [] := by
  unfold contextualFallback
  split_ifs <;> first
    | decide
    | exact genericFallback_ne_nil idx

lemma vertexYields_mem_ne {texts : List (List Char)} {b : List Char}
    (hb : b ∈ vertexYields texts) : b ≠ [] := by
  obtain ⟨t, ht, rfl⟩ := List.mem_map.mp hb
  have := List.of_mem_filter ht
  simpa using this

lemma singleton_stream {x : List Char} (hx : x ≠ []) :
    ([x] : List (List Char)) ≠ [] ∧ ∀ b ∈ ([x] : List (List Char)), b ≠ [] := by
  refine ⟨by simp, fun b hb => ?_⟩
  rw [List.mem_singleton] at hb
  subst hb
  exact hx

lemma append_stream {ys X : List (List Char)} (hys : ∀ b ∈ ys, b ≠ [])
    (hX : X ≠ [] ∧ ∀ b ∈ X, b ≠ []) :
    ys ++ X ≠ [] ∧ ∀ b ∈ ys ++ X, b ≠ [] := by
  refine ⟨fun hh => hX.1 (List.append_eq_nil.mp hh).2, fun b hb => ?_⟩
  rcases List.mem_append.mp hb with h | h
  · exact hys b h
  · exact hX.2 b h

lemma chatStreamLoop_stream (beh : Nat → VertexAttempt) (fbIdx : Nat) :
    ∀ (rem a : Nat) (prompt : List Char),
      chatStreamLoop beh fbIdx prompt a rem ≠ []
      ∧ ∀ b ∈ chatStreamLoop beh fbIdx prompt a rem, b ≠ [] := by
  intro rem
  induction rem with
  | zero =>
    intro a prompt
    simp only [chatStreamLoop]
    exact singleton_stream (genericFallback_ne_nil fbIdx)
  | succ rem ih =>
    intro a prompt
    cases hba : beh a with
    | ok texts =>
      simp only [chatStreamLoop, hba]
      split_ifs with h1 h2
      · exact ⟨h1, fun b hb => vertexYields_mem_ne hb⟩
      · exact singleton_stream (contextualFallback_ne_nil prompt fbIdx)
      · exact ih (a + 1) prompt
    | raises texts msg =>
      simp only [chatStreamLoop, hba]
      split_ifs with h1 h2 h3 h4 h5
      · exact append_stream (fun b hb => vertexYields_mem_ne hb)
          (singleton_stream (safetyFallback_ne_nil fbIdx))
      · exact append_stream (fun b hb => vertexYields_mem_ne hb)
          (ih (a + 1) (rephrasePrompt prompt))
      · exact append_stream (fun b hb => vertexYields_mem_ne hb)
          (singleton_stream (contextualFallback_ne_nil prompt fbIdx))
      · exact append_stream (fun b hb => vertexYields_mem_ne hb)
          (ih (a + 1) prompt)
      · exact append_stream (fun b hb => vertexYields_mem_ne hb)
          (singleton_stream (genericFallback_ne_nil fbIdx))
      · exact append_stream (fun b hb => vertexYields_mem_ne hb)
          (ih (a + 1) prompt)

/-- C10. For every prompt and every behaviour of the underlying model —
including raising on all three attempts or returning only empty
responses — `chat_stream` yields at least one block, and every yielded
block is non-empty: failures are replaced by a canned fallback response,
so the stream consumed by the conversation manager is never empty. -/
theorem chat_stream_never_empty (beh : Nat → VertexAttempt)
    (prompt : List Char) (fbIdx : Nat) :
    chat_stream beh prompt fbIdx ≠ []
    ∧ ∀ b ∈ chat_stream beh prompt fbIdx, b ≠ [] :=
  chatStreamLoop_stream beh fbIdx 3 0 prompt
